import Mathlib

/-!
Verification of the word-convergence game room server (`GameRoom` durable
object, file `src/worker/src/index.ts`, together with the wire types of
`src/web/shared/types.ts`).

The embedding below is a direct shallow translation of the TypeScript
source. JS `Record<string, T>` objects are modelled as association lists
in insertion order (JS objects preserve string-key insertion order, and
assignment to an existing key keeps its position, which is what
`Object.entries` iteration observes). The `Map` used by `resolveWin` is
modelled the same way. Connections (`ctx.getWebSockets()` plus tags) are
a list of connection ids in accept order. Persistence (`load`/`save`) is
the state value threaded through each handler; outgoing `ws.send` and
`broadcast` calls are collected in an output list.

Each message handler additionally reports, in the `resolved` field of its
result, whether it invoked `resolveRound`, together with the connection
list and state it passed to it; the field is set exactly at the two call
sites of `resolveRound` in the source.
-/

namespace Meld

abbrev PlayerId := String

/-- Phase of a room, `"lobby" | "playing" | "won"` in the source. -/
inductive Phase
  | lobby
  | playing
  | won
deriving DecidableEq

/-- Win condition, `"exact" | "majority"` in `types.ts`. -/
inductive WinCondition
  | exact
  | majority
deriving DecidableEq

/-- GameConfig of `types.ts`. -/
structure GameConfig where
  winCondition : WinCondition
deriving DecidableEq

/-- DEFAULT_CONFIG of `types.ts`: `{ winCondition: "exact" }`. -/
def DEFAULT_CONFIG : GameConfig := ⟨WinCondition.exact⟩

/-- Store models a JS `Record<string, α>` as an association list in key
insertion order. -/
abbrev Store (α : Type) := List (PlayerId × α)

/-- Reading `obj[k]`: the value at key `k`, if present. -/
def lookupK {α : Type} : Store α → PlayerId → Option α
  | [], _ => none
  | (k0, v) :: rest, k => if k0 = k then some v else lookupK rest k

/-- Writing `obj[k] = v`: updates an existing key in place, otherwise
appends the new key (JS insertion-order semantics). -/
def setK {α : Type} : Store α → PlayerId → α → Store α
  | [], k, v => [(k, v)]
  | (k0, v0) :: rest, k, v =>
      if k0 = k then (k, v) :: rest else (k0, v0) :: setK rest k v

/-- Effect of `delete obj[k]`. -/
def eraseK {α : Type} (m : Store α) (k : PlayerId) : Store α :=
  m.filter (fun p => p.1 ≠ k)

/-- One recorded submission inside a RoundEntry (`{id, name, word}`). -/
structure Submission where
  id : PlayerId
  name : String
  word : String
deriving DecidableEq

/-- RoundEntry of `types.ts`. -/
structure RoundEntry where
  submissions : List Submission
  won : Bool
  winningWord : Option String
deriving DecidableEq

/-- PersistedState of the worker source. -/
structure PersistedState where
  phase : Phase
  playerNames : Store String
  playerSubmitted : Store Bool
  usedWords : List String
  currentSubmissions : Store String
  roundHistory : List RoundEntry
  restartVotes : List PlayerId
  config : GameConfig
deriving DecidableEq

/-- The state `load` returns when nothing was persisted yet. -/
def initialState : PersistedState :=
  { phase := Phase.lobby,
    playerNames := [],
    playerSubmitted := [],
    usedWords := [],
    currentSubmissions := [],
    roundHistory := [],
    restartVotes := [],
    config := DEFAULT_CONFIG }

/-- Player entry of a broadcast state message (`types.ts`). -/
structure Player where
  id : PlayerId
  name : String
  submitted : Bool
deriving DecidableEq

/-- Messages the room sends to clients. -/
inductive ServerMsg
  | welcome (playerId : PlayerId)
  | stateMsg (phase : Phase) (players : List Player)
      (roundHistory : List RoundEntry) (restartVotes : List PlayerId)
      (config : GameConfig)
  | errorMsg (message : String)
  | pong
deriving DecidableEq

/-- An outgoing transmission: either `ws.send` on one socket or
`this.broadcast` to every live socket. -/
inductive Out
  | send (dest : PlayerId) (msg : ServerMsg)
  | broadcast (msg : ServerMsg)
deriving DecidableEq

/-- ClientMessage of `types.ts`. -/
inductive ClientMsg
  | join (playerName : String)
  | start (winCondition : Option WinCondition)
  | submit (word : String)
  | retract
  | restartReq
  | restartCancel
  | reset
  | ping
deriving DecidableEq

/-! ### JS string primitives -/

/-- Whitespace test used by `jsTrim` (ASCII whitespace of JS `.trim()`). -/
def isSpaceChar (c : Char) : Bool :=
  c = ' ' ∨ c = '\t' ∨ c = '\n' ∨ c = '\r'

/-- Model of JS `String.prototype.trim`. -/
def jsTrim (s : String) : String :=
  (((s.data.dropWhile isSpaceChar).reverse.dropWhile isSpaceChar).reverse).asString

/-- Lowercasing of one character (ASCII range of JS `.toLowerCase()`). -/
def lowerChar (c : Char) : Char :=
  if 'A' ≤ c ∧ c ≤ 'Z' then Char.ofNat (c.toNat + 32) else c

/-- Model of JS `String.prototype.toLowerCase`. -/
def jsToLower (s : String) : String :=
  (s.data.map lowerChar).asString

/-! ### resolveWin -/

/-- One step of `counts.set(w, (counts.get(w) ?? 0) + 1)` on the insertion
ordered model of the JS `Map`. -/
def incr : List (String × Nat) → String → List (String × Nat)
  | [], w => [(w, 1)]
  | (k, c) :: rest, w =>
      if k = w then (k, c + 1) :: rest else (k, c) :: incr rest w

/-- The `counts` map of `resolveWin` after the `for (const w of words)`
loop, entries in first-encounter order. -/
def buildCounts (words : List String) : List (String × Nat) :=
  words.foldl incr []

/-- The `for (const [word, count] of counts)` scan of `resolveWin`: keeps
the first entry achieving the running maximum (strict `count > maxCount`
improvement), starting from `winner = null`, `maxCount = 0`. -/
def pickWinner (counts : List (String × Nat)) : Option String × Nat :=
  counts.foldl (fun acc e => if e.2 > acc.2 then (some e.1, e.2) else acc)
    (none, 0)

/-- The distinct words of a list in the order they are first encountered
while scanning left to right: exactly the key order of `buildCounts`. -/
def distinctsInOrder : List String → List String
  | [] => []
  | w :: ws => w :: (distinctsInOrder ws).filter (fun x => x ≠ w)

/-- Function `resolveWin` of the source. The JS comparison
`maxCount > words.length / 2` is float division; on naturals it is
equivalent to `words.length < 2 * maxCount`. -/
def resolveWin (words : List String) (config : GameConfig) : Option String :=
  if words.length < 2 then none
  else
    match config.winCondition with
    | WinCondition.exact =>
        match words with
        | [] => none
        | w0 :: _ => if words.all (fun w => w = w0) then some w0 else none
    | WinCondition.majority =>
        let wm := pickWinner (buildCounts words)
        if words.length < 2 * wm.2 then wm.1 else none

/-! ### Join name normalization and deduplication -/

/-- Decimal digits of a natural number, most significant first, computed
with explicit fuel (the fuel `n + 1` always suffices). -/
def digitsGo : Nat → Nat → List Nat
  | 0, _ => []
  | fuel + 1, n => if n < 10 then [n] else digitsGo fuel (n / 10) ++ [n % 10]

/-- Decimal digits of a natural number, most significant first. -/
def decDigits (n : Nat) : List Nat :=
  digitsGo (n + 1) n

/-- Character for one decimal digit. -/
def digitChar : Nat → Char
  | 0 => '0'
  | 1 => '1'
  | 2 => '2'
  | 3 => '3'
  | 4 => '4'
  | 5 => '5'
  | 6 => '6'
  | 7 => '7'
  | 8 => '8'
  | 9 => '9'
  | _ => '?'

/-- Decimal string of a natural number: the JS rendering of `${n}` for a
non-negative integer. -/
def natStr (n : Nat) : String :=
  ((decDigits n).map digitChar).asString

/-- The name candidate `` `${name} (${n})` `` tried by the join handler. -/
def candidateName (name : String) (n : Nat) : String :=
  name ++ " (" ++ natStr n ++ ")"

/-- The `while (takenNames.has(...)) n++` loop of the join handler,
starting at `n` with explicit fuel. `taken.length + 1` fuel always finds a
free candidate, because the candidates are pairwise distinct. -/
def findFreeN (taken : List String) (name : String) : Nat → Nat → Nat
  | 0, n => n
  | fuel + 1, n =>
      if candidateName name n ∈ taken then findFreeN taken name fuel (n + 1)
      else n

/-- Name normalization of the join handler:
`data.playerName.trim().slice(0, 20) || "Anonymous"`. -/
def normalizeName (raw : String) : String :=
  let t := (jsTrim raw).take 20
  if t = "" then "Anonymous" else t

/-- The `takenNames` set of the join handler: names of the other currently
live connections. The JS `.filter(Boolean)` drops both missing entries and
empty strings. -/
def takenNames (conns : List PlayerId) (pid : PlayerId)
    (s : PersistedState) : List String :=
  (((conns.filter (fun id => id ≠ pid)).filterMap
      (fun id => lookupK s.playerNames id)).filter (fun n => n ≠ ""))

/-- The display name stored by the join handler: the normalized name,
deduplicated against live names with the smallest free `" (n)"` suffix. -/
def joinName (conns : List PlayerId) (pid : PlayerId) (raw : String)
    (s : PersistedState) : String :=
  let base := normalizeName raw
  let taken := takenNames conns pid s
  if base ∈ taken then
    candidateName base (findFreeN taken base (taken.length + 1) 2)
  else base

/-! ### Broadcast payload -/

/-- The `players` array of `broadcastState`: live connections that have a
name on file, each with its submitted flag (`?? false`). -/
def statePlayers (conns : List PlayerId) (s : PersistedState) : List Player :=
  (conns.filter (fun id => (lookupK s.playerNames id).isSome)).map
    (fun id =>
      { id := id,
        name := (lookupK s.playerNames id).getD "",
        submitted := (lookupK s.playerSubmitted id).getD false })

/-- The `state` message built by `broadcastState`. -/
def broadcastStateMsg (conns : List PlayerId) (s : PersistedState) : ServerMsg :=
  ServerMsg.stateMsg s.phase (statePlayers conns s) s.roundHistory
    s.restartVotes s.config

/-- The broadcast performed by `broadcastState`. -/
def broadcastState (conns : List PlayerId) (s : PersistedState) : Out :=
  Out.broadcast (broadcastStateMsg conns s)

/-! ### Round resolution -/

/-- The `submissions` array built at the top of `resolveRound`:
`{ id, name: state.playerNames[id] ?? "Unknown", word }` for every entry
of `currentSubmissions`, in insertion order. -/
def mkSubmissions (s : PersistedState) : List Submission :=
  s.currentSubmissions.map
    (fun p => { id := p.1,
                name := (lookupK s.playerNames p.1).getD "Unknown",
                word := p.2 })

/-- The add-if-absent merge of submitted words into `usedWords`. -/
def mergeUsed (used : List String) (words : List String) : List String :=
  words.foldl (fun acc w => if w ∈ acc then acc else acc ++ [w]) used

/-- Effect of `for (const id of this.connectedIds()) state.playerSubmitted[id] = false`. -/
def clearSubmittedFlags (conns : List PlayerId) (m : Store Bool) : Store Bool :=
  conns.foldl (fun acc id => setK acc id false) m

/-- Method `resolveRound` of the source: build the RoundEntry, merge the
words into `usedWords`, append to history, then either enter `won` or
start the next round; finally broadcast. -/
def resolveRound (conns : List PlayerId) (s : PersistedState) :
    PersistedState × List Out :=
  let submissions := mkSubmissions s
  let words := submissions.map (fun sub => sub.word)
  let winningWord := resolveWin words s.config
  let won := winningWord.isSome
  let used := mergeUsed s.usedWords words
  let hist := s.roundHistory ++ [⟨submissions, won, winningWord⟩]
  if won then
    let s2 := { s with
                usedWords := used,
                roundHistory := hist,
                phase := Phase.won }
    (s2, [broadcastState conns s2])
  else
    let s2 := { s with
                usedWords := used,
                roundHistory := hist,
                phase := Phase.playing,
                currentSubmissions := [],
                playerSubmitted := clearSubmittedFlags conns s.playerSubmitted }
    (s2, [broadcastState conns s2])

/-! ### Message handlers -/

/-- Result of one handler run: the state it persisted, the transmissions
it made, and, when it invoked `resolveRound`, the connection list and
state it passed to it. -/
structure HandlerResult where
  state : PersistedState
  outs : List Out
  resolved : Option (List PlayerId × PersistedState)
deriving DecidableEq

/-- Case `"join"` of `webSocketMessage`. -/
def handleJoin (conns : List PlayerId) (pid : PlayerId) (raw : String)
    (s : PersistedState) : HandlerResult :=
  let name := joinName conns pid raw s
  let s1 := { s with
              playerNames := setK s.playerNames pid name,
              playerSubmitted :=
                match lookupK s.playerSubmitted pid with
                | none => setK s.playerSubmitted pid false
                | some _ => s.playerSubmitted }
  ⟨s1, [Out.send pid (ServerMsg.welcome pid), broadcastState conns s1], none⟩

/-- Case `"start"` of `webSocketMessage`. -/
def handleStart (conns : List PlayerId) (wc : Option WinCondition)
    (s : PersistedState) : HandlerResult :=
  if s.phase ≠ Phase.lobby ∨ conns.length < 2 then ⟨s, [], none⟩
  else
    let s1 := { s with
                phase := Phase.playing,
                config := (match wc with
                           | some w => ⟨w⟩
                           | none => s.config),
                currentSubmissions := [],
                playerSubmitted := clearSubmittedFlags conns s.playerSubmitted }
    ⟨s1, [broadcastState conns s1], none⟩

/-- The quorum check `ids.every((id) => state.playerSubmitted[id])`. -/
def allSubmittedB (conns : List PlayerId) (s : PersistedState) : Bool :=
  conns.all (fun id => (lookupK s.playerSubmitted id).getD false)

/-- Text of the word-reuse rejection. -/
def submitErrorText (word : String) : String :=
  "\"" ++ word ++ "\" was used in a previous round."

/-- Case `"submit"` of `webSocketMessage`. -/
def handleSubmit (conns : List PlayerId) (pid : PlayerId) (raw : String)
    (s : PersistedState) : HandlerResult :=
  if s.phase ≠ Phase.playing ∨ (lookupK s.playerSubmitted pid).getD false then
    ⟨s, [], none⟩
  else
    let word := jsToLower (jsTrim raw)
    if word = "" then ⟨s, [], none⟩
    else if word ∈ s.usedWords then
      ⟨s, [Out.send pid (ServerMsg.errorMsg (submitErrorText word))], none⟩
    else
      let s1 := { s with
                  playerSubmitted := setK s.playerSubmitted pid true,
                  currentSubmissions := setK s.currentSubmissions pid word }
      if allSubmittedB conns s1 then
        let rr := resolveRound conns s1
        ⟨rr.1, rr.2, some (conns, s1)⟩
      else ⟨s1, [broadcastState conns s1], none⟩

/-- Case `"retract"` of `webSocketMessage`. -/
def handleRetract (conns : List PlayerId) (pid : PlayerId)
    (s : PersistedState) : HandlerResult :=
  if s.phase ≠ Phase.playing ∨ ¬ (lookupK s.playerSubmitted pid).getD false then
    ⟨s, [], none⟩
  else
    let s1 := { s with
                currentSubmissions := eraseK s.currentSubmissions pid,
                playerSubmitted := setK s.playerSubmitted pid false }
    ⟨s1, [broadcastState conns s1], none⟩

/-- Live connections that have a name on file
(`connectedIds().filter((id) => state.playerNames[id] !== undefined)`). -/
def namedOf (conns : List PlayerId) (s : PersistedState) : List PlayerId :=
  conns.filter (fun id => (lookupK s.playerNames id).isSome)

/-- The restart vote set after the idempotent addition of the caller. -/
def restartVotesAfter (pid : PlayerId) (votes : List PlayerId) : List PlayerId :=
  if pid ∈ votes then votes else votes ++ [pid]

/-- Success test of a `restart_request`: after the caller is added, the
live named connections are non-empty and have all voted. -/
def restartSucceedsB (conns : List PlayerId) (pid : PlayerId)
    (s : PersistedState) : Bool :=
  let votes := restartVotesAfter pid s.restartVotes
  let named := namedOf conns s
  !named.isEmpty && named.all (fun id => id ∈ votes)

/-- The fresh game built for a successful restart vote, for `reset`, and
for the restart vote completed by a disconnect: only the given named live
connections are kept, all flags cleared, `config` carried over. -/
def freshGameState (named : List PlayerId) (s : PersistedState) :
    PersistedState :=
  { phase := Phase.playing,
    playerNames :=
      named.filterMap (fun id => (lookupK s.playerNames id).map (fun n => (id, n))),
    playerSubmitted := named.map (fun id => (id, false)),
    usedWords := [],
    currentSubmissions := [],
    roundHistory := [],
    restartVotes := [],
    config := s.config }

/-- Case `"restart_request"` of `webSocketMessage`. -/
def handleRestartRequest (conns : List PlayerId) (pid : PlayerId)
    (s : PersistedState) : HandlerResult :=
  if s.phase ≠ Phase.playing then ⟨s, [], none⟩
  else if restartSucceedsB conns pid s then
    let fresh := freshGameState (namedOf conns s) s
    ⟨fresh, [broadcastState conns fresh], none⟩
  else
    let s1 := { s with restartVotes := restartVotesAfter pid s.restartVotes }
    ⟨s1, [broadcastState conns s1], none⟩

/-- Case `"restart_cancel"` of `webSocketMessage`. -/
def handleRestartCancel (conns : List PlayerId) (s : PersistedState) :
    HandlerResult :=
  if s.phase ≠ Phase.playing then ⟨s, [], none⟩
  else
    let s1 := { s with restartVotes := [] }
    ⟨s1, [broadcastState conns s1], none⟩

/-- Case `"reset"` of `webSocketMessage`: unconditional fresh game for the
live named connections. -/
def handleReset (conns : List PlayerId) (s : PersistedState) : HandlerResult :=
  let fresh := freshGameState (namedOf conns s) s
  ⟨fresh, [broadcastState conns fresh], none⟩

/-- Method `webSocketMessage`: dispatch by message type. `ping` replies
without loading state; every other type runs its handler on the loaded
state. -/
def webSocketMessage (conns : List PlayerId) (pid : PlayerId)
    (m : ClientMsg) (s : PersistedState) : HandlerResult :=
  match m with
  | ClientMsg.ping => ⟨s, [Out.send pid ServerMsg.pong], none⟩
  | ClientMsg.join nm => handleJoin conns pid nm s
  | ClientMsg.start wc => handleStart conns wc s
  | ClientMsg.submit w => handleSubmit conns pid w s
  | ClientMsg.retract => handleRetract conns pid s
  | ClientMsg.restartReq => handleRestartRequest conns pid s
  | ClientMsg.restartCancel => handleRestartCancel conns s
  | ClientMsg.reset => handleReset conns s

/-- Deletions performed at the top of `webSocketClose` for the departing
connection. -/
def deleteTraces (s : PersistedState) (pid : PlayerId) : PersistedState :=
  { s with
    playerNames := eraseK s.playerNames pid,
    playerSubmitted := eraseK s.playerSubmitted pid,
    currentSubmissions := eraseK s.currentSubmissions pid,
    restartVotes := s.restartVotes.filter (fun id => id ≠ pid) }

/-- The guard of the disconnect-completes-restart branch of
`webSocketClose`, evaluated on the cleaned state. -/
def closeRestartB (remaining : List PlayerId) (s : PersistedState) : Bool :=
  s.phase = Phase.playing && !s.restartVotes.isEmpty &&
    (let namedR := namedOf remaining s
     !namedR.isEmpty && namedR.all (fun id => id ∈ s.restartVotes))

/-- The guard of the disconnect-completes-round branch of
`webSocketClose`, evaluated on the cleaned state. -/
def closeResolveB (remaining : List PlayerId) (s : PersistedState) : Bool :=
  s.phase = Phase.playing && !remaining.isEmpty &&
    allSubmittedB remaining s && !s.currentSubmissions.isEmpty

/-- Method `webSocketClose`, given the still-live connections `remaining`
(the departing socket is no longer in `getWebSockets()`). -/
def webSocketClose (remaining : List PlayerId) (pid : PlayerId)
    (s : PersistedState) : HandlerResult :=
  let s1 := deleteTraces s pid
  if remaining.isEmpty then
    ⟨{ s1 with phase := Phase.lobby, restartVotes := [] }, [], none⟩
  else if closeRestartB remaining s1 then
    let fresh := freshGameState (namedOf remaining s1) s1
    ⟨fresh, [broadcastState remaining fresh], none⟩
  else if closeResolveB remaining s1 then
    let rr := resolveRound remaining s1
    ⟨rr.1, rr.2, some (remaining, s1)⟩
  else ⟨s1, [broadcastState remaining s1], none⟩

/-! ### The room as a transition system -/

/-- A room: the live connection ids (accept order) and the persisted
state. -/
structure Room where
  conns : List PlayerId
  state : PersistedState
deriving DecidableEq

/-- A freshly addressed room: no connections, lazily created state. -/
def initRoom : Room := ⟨[], initialState⟩

/-- External events a room processes, one at a time. -/
inductive Event
  | connect (id : PlayerId)
  | msg (id : PlayerId) (m : ClientMsg)
  | disconnect (id : PlayerId)
deriving DecidableEq

/-- Result of processing one event. -/
structure StepResult where
  room : Room
  outs : List Out
  resolved : Option (List PlayerId × PersistedState)
deriving DecidableEq

/-- Processing of one event. A `connect` accepts a fresh id (ids are
unique, `crypto.randomUUID`); a message is handled only for a live
connection; a `disconnect` of a live connection removes it and runs
`webSocketClose`. -/
def step (r : Room) (e : Event) : StepResult :=
  match e with
  | Event.connect id =>
      if id ∈ r.conns then ⟨r, [], none⟩
      else ⟨⟨r.conns ++ [id], r.state⟩, [], none⟩
  | Event.msg id m =>
      if id ∈ r.conns then
        let h := webSocketMessage r.conns id m r.state
        ⟨⟨r.conns, h.state⟩, h.outs, h.resolved⟩
      else ⟨r, [], none⟩
  | Event.disconnect id =>
      if id ∈ r.conns then
        let remaining := r.conns.filter (fun x => x ≠ id)
        let h := webSocketClose remaining id r.state
        ⟨⟨remaining, h.state⟩, h.outs, h.resolved⟩
      else ⟨r, [], none⟩

/-- Room reached by a sequence of events from the initial room. -/
def runTrace (evs : List Event) : Room :=
  evs.foldl (fun r e => (step r e).room) initRoom

/-- Reachability of a room configuration. -/
inductive Reachable : Room → Prop
  | init : Reachable initRoom
  | next (r : Room) (e : Event) : Reachable r → Reachable (step r e).room

/-- Events that start a fresh game: a `reset`, a successful
`restart_request`, and a disconnect that completes a pending restart
vote. These are exactly the steps that rebuild the state through
`freshGameState`. -/
def freshStep (r : Room) (e : Event) : Bool :=
  match e with
  | Event.connect _ => false
  | Event.msg id m =>
      id ∈ r.conns &&
        (match m with
         | ClientMsg.reset => true
         | ClientMsg.restartReq =>
             r.state.phase = Phase.playing && restartSucceedsB r.conns id r.state
         | _ => false)
  | Event.disconnect id =>
      id ∈ r.conns &&
        (let remaining := r.conns.filter (fun x => x ≠ id)
         !remaining.isEmpty && closeRestartB remaining (deleteTraces r.state id))

/-! ### Concrete scenarios -/

/-- Trace in which a connection that never joined submits: two sockets
connect, only the first joins and starts, then both submit. -/
def unjoinedSubmitTrace : List Event :=
  [Event.connect "a", Event.connect "b",
   Event.msg "a" (ClientMsg.join "Alice"),
   Event.msg "a" (ClientMsg.start none),
   Event.msg "b" (ClientMsg.submit "apple"),
   Event.msg "a" (ClientMsg.submit "apple")]

/-- Trace with one open submission by a joined player. -/
def submitInFlightTrace : List Event :=
  [Event.connect "a", Event.connect "b",
   Event.msg "a" (ClientMsg.join "Alice"),
   Event.msg "b" (ClientMsg.join "Bob"),
   Event.msg "a" (ClientMsg.start none),
   Event.msg "a" (ClientMsg.submit "pear")]

/-- Trace of a full unresolved round followed by both players leaving. -/
def playThenLeaveTrace : List Event :=
  [Event.connect "a", Event.connect "b",
   Event.msg "a" (ClientMsg.join "Alice"),
   Event.msg "b" (ClientMsg.join "Bob"),
   Event.msg "a" (ClientMsg.start none),
   Event.msg "a" (ClientMsg.submit "red"),
   Event.msg "b" (ClientMsg.submit "blue"),
   Event.disconnect "b", Event.disconnect "a"]

/-- A one-player playing room about to receive the final submission. -/
def soloPlayingRoom : Room :=
  ⟨["a"], { initialState with
            phase := Phase.playing,
            playerNames := [("a", "Al")],
            playerSubmitted := [("a", false)] }⟩

/-- The recorded state `soloPlayingRoom` reaches when "a" submits "x". -/
def soloRecordedState : PersistedState :=
  { initialState with
    phase := Phase.playing,
    playerNames := [("a", "Al")],
    playerSubmitted := [("a", true)],
    currentSubmissions := [("a", "x")] }

/-- A playing state in which the word "apple" was used in a prior round. -/
def usedAppleState : PersistedState :=
  { initialState with phase := Phase.playing, usedWords := ["apple"] }

/-- A one-player playing state with a round behind it. -/
def midGameState : PersistedState :=
  { initialState with
    phase := Phase.playing,
    playerNames := [("a", "Al")],
    playerSubmitted := [("a", false)],
    usedWords := ["red", "blue"],
    roundHistory := [⟨[⟨"a", "Al", "red"⟩], false, none⟩],
    restartVotes := ["a"] }

/-- A state with one other live player already named "Alice". -/
def aliceTakenState : PersistedState :=
  { initialState with playerNames := [("a", "Alice")] }

/-! ## Helper lemmas -/

theorem lookupK_setK_self {α : Type} (m : Store α) (k : PlayerId) (v : α) :
    lookupK (setK m k v) k = some v := by
  induction m with
  | nil => simp [setK, lookupK]
  | cons p rest ih =>
    obtain ⟨k0, v0⟩ := p
    by_cases h : k0 = k
    · simp [setK, h, lookupK]
    · simp [setK, h, lookupK, ih]

theorem mem_setK {α : Type} (m : Store α) (k : PlayerId) (v : α)
    (p : PlayerId × α) (hp : p ∈ setK m k v) : p = (k, v) ∨ p ∈ m := by
  induction m with
  | nil => simpa [setK] using hp
  | cons q rest ih =>
    obtain ⟨k0, v0⟩ := q
    by_cases h : k0 = k
    · simp only [setK, if_pos h, List.mem_cons] at hp
      rcases hp with h1 | h2
      · exact Or.inl h1
      · exact Or.inr (List.mem_cons_of_mem _ h2)
    · simp only [setK, if_neg h, List.mem_cons] at hp
      rcases hp with h1 | h2
      · exact Or.inr (by simp [h1])
      · rcases ih h2 with h3 | h4
        · exact Or.inl h3
        · exact Or.inr (List.mem_cons_of_mem _ h4)

theorem mem_eraseK {α : Type} (m : Store α) (k : PlayerId)
    (p : PlayerId × α) : p ∈ eraseK m k ↔ p ∈ m ∧ p.1 ≠ k := by
  simp [eraseK, List.mem_filter]

theorem mem_mergeUsed (used ws : List String) (w : String) (hw : w ∈ used) :
    w ∈ mergeUsed used ws := by
  induction ws generalizing used with
  | nil => simpa [mergeUsed] using hw
  | cons x xs ih =>
    simp only [mergeUsed, List.foldl_cons]
    by_cases hx : x ∈ used
    · rw [if_pos hx]
      have := ih used hw
      simpa [mergeUsed] using this
    · rw [if_neg hx]
      have := ih (used ++ [x]) (by simp [hw])
      simpa [mergeUsed] using this

theorem allSubmittedB_spec (conns : List PlayerId) (s : PersistedState)
    (h : allSubmittedB conns s = true) :
    ∀ id ∈ conns, (lookupK s.playerSubmitted id).getD false = true := by
  intro id hid
  exact List.all_eq_true.mp h id hid

theorem reachable_runTrace (evs : List Event) : Reachable (runTrace evs) := by
  suffices h : ∀ r, Reachable r → Reachable (evs.foldl (fun r e => (step r e).room) r) by
    exact h initRoom Reachable.init
  induction evs with
  | nil => intro r hr; simpa using hr
  | cons e es ih =>
    intro r hr
    simpa using ih ((step r e).room) (Reachable.next r e hr)

/-! ## C2: exact mode -/

/-- C2: in exact mode, a win exists iff there are at least two submitted
words and all of them are equal, and the winning word returned is that
common word (`none` when there is no win). -/
theorem resolveWin_exact_characterization (words : List String) :
    ((resolveWin words ⟨WinCondition.exact⟩).isSome ↔
      2 ≤ words.length ∧ ∀ x ∈ words, ∀ y ∈ words, x = y) ∧
    (∀ w, resolveWin words ⟨WinCondition.exact⟩ = some w →
      w ∈ words ∧ ∀ x ∈ words, x = w) := by
  match words with
  | [] => simp [resolveWin]
  | [w] => simp [resolveWin]
  | w0 :: w1 :: rest =>
    have hrw : resolveWin (w0 :: w1 :: rest) ⟨WinCondition.exact⟩ =
        (if (w0 :: w1 :: rest).all (fun w => w = w0) then some w0 else none) := by
      unfold resolveWin
      rw [if_neg (by simp only [List.length_cons]; omega)]
    constructor
    · constructor
      · intro h
        rw [hrw] at h
        by_cases hall : (w0 :: w1 :: rest).all (fun w => w = w0)
        · refine ⟨by simp only [List.length_cons]; omega, ?_⟩
          intro x hx y hy
          have hx0 := List.all_eq_true.mp hall x hx
          have hy0 := List.all_eq_true.mp hall y hy
          simp only [decide_eq_true_eq] at hx0 hy0
          rw [hx0, hy0]
        · rw [if_neg hall] at h
          simp at h
      · rintro ⟨-, hall⟩
        have hb : (w0 :: w1 :: rest).all (fun w => w = w0) = true := by
          apply List.all_eq_true.mpr
          intro x hx
          simpa using hall x hx w0 (by simp)
        rw [hrw, if_pos hb]
        simp
    · intro w hw
      rw [hrw] at hw
      by_cases hall : (w0 :: w1 :: rest).all (fun w => w = w0)
      · rw [if_pos hall] at hw
        have hw0 : w0 = w := by simpa using hw
        subst hw0
        refine ⟨by simp, ?_⟩
        intro x hx
        have := List.all_eq_true.mp hall x hx
        simpa using this
      · rw [if_neg hall] at hw
        cases hw

/-! ## C4: word reuse rejection -/

/-- C4: a submit of a word already in `usedWords` (while playing and not
yet submitted, with a non-empty normalized word) sends the submitter
exactly one error message naming the word and leaves the state unchanged,
with no broadcast and no round resolution. -/
theorem submit_usedWord_rejected_no_mutation (conns : List PlayerId)
    (pid : PlayerId) (raw : String) (s : PersistedState)
    (hphase : s.phase = Phase.playing)
    (hnotsub : (lookupK s.playerSubmitted pid).getD false = false)
    (hne : jsToLower (jsTrim raw) ≠ "")
    (hused : jsToLower (jsTrim raw) ∈ s.usedWords) :
    handleSubmit conns pid raw s =
      ⟨s, [Out.send pid (ServerMsg.errorMsg (submitErrorText (jsToLower (jsTrim raw))))], none⟩ := by
  unfold handleSubmit
  rw [if_neg (by simp [hphase, hnotsub])]
  simp only [if_neg hne, if_pos hused]

theorem submit_usedWord_rejected_no_mutation_witness :
    (usedAppleState.phase = Phase.playing ∧
      jsToLower (jsTrim "Apple") ∈ usedAppleState.usedWords) ∧
    handleSubmit ["a"] "a" "Apple" usedAppleState =
      ⟨usedAppleState,
       [Out.send "a" (ServerMsg.errorMsg (submitErrorText "apple"))], none⟩ := by
  refine ⟨⟨rfl, by decide⟩, ?_⟩
  have h := submit_usedWord_rejected_no_mutation ["a"] "a" "Apple" usedAppleState
    rfl (by decide) (by decide) (by decide)
  have h2 : jsToLower (jsTrim "Apple") = "apple" := by decide
  rw [h2] at h
  exact h

/-! ## C7: unanimous restart vote -/

/-- C7: while playing, when after the idempotent vote addition the live
named connections are non-empty and all present in the vote set, the
restart succeeds and the resulting state is a fresh game: phase playing,
player maps rebuilt for exactly the live named connections with submitted
false, empty words, submissions, history and votes, config carried over. -/
theorem restart_unanimous_fresh_game (conns : List PlayerId)
    (pid : PlayerId) (s : PersistedState)
    (hphase : s.phase = Phase.playing)
    (hne : namedOf conns s ≠ [])
    (hall : ∀ id ∈ namedOf conns s, id ∈ restartVotesAfter pid s.restartVotes) :
    (handleRestartRequest conns pid s).state = freshGameState (namedOf conns s) s ∧
    (handleRestartRequest conns pid s).state.phase = Phase.playing ∧
    (handleRestartRequest conns pid s).state.playerNames =
      (namedOf conns s).filterMap
        (fun id => (lookupK s.playerNames id).map (fun n => (id, n))) ∧
    (handleRestartRequest conns pid s).state.playerSubmitted =
      (namedOf conns s).map (fun id => (id, false)) ∧
    (handleRestartRequest conns pid s).state.usedWords = [] ∧
    (handleRestartRequest conns pid s).state.currentSubmissions = [] ∧
    (handleRestartRequest conns pid s).state.roundHistory = [] ∧
    (handleRestartRequest conns pid s).state.restartVotes = [] ∧
    (handleRestartRequest conns pid s).state.config = s.config := by
  have hcond : restartSucceedsB conns pid s = true := by
    have h1 : (namedOf conns s).isEmpty = false := by
      simpa [List.isEmpty_iff] using hne
    unfold restartSucceedsB
    simp only [h1, Bool.not_false, Bool.true_and, List.all_eq_true,
      decide_eq_true_eq]
    exact hall
  have hres : (handleRestartRequest conns pid s).state =
      freshGameState (namedOf conns s) s := by
    unfold handleRestartRequest
    rw [if_neg (by simp [hphase]), if_pos hcond]
  refine ⟨hres, ?_⟩
  rw [hres]
  exact ⟨rfl, rfl, rfl, rfl, rfl, rfl, rfl, rfl⟩

theorem restart_unanimous_fresh_game_witness :
    (midGameState.phase = Phase.playing ∧ namedOf ["a"] midGameState = ["a"] ∧
      restartVotesAfter "a" midGameState.restartVotes = ["a"]) ∧
    (handleRestartRequest ["a"] "a" midGameState).state =
      freshGameState ["a"] midGameState := by
  refine ⟨⟨rfl, by decide, by decide⟩, ?_⟩
  have h := restart_unanimous_fresh_game ["a"] "a" midGameState rfl
    (by decide) (by decide)
  rw [h.1]
  decide

/-! ## C5: quorum before resolution -/

theorem handleJoin_resolved_none (conns : List PlayerId) (pid : PlayerId)
    (raw : String) (s : PersistedState) :
    (handleJoin conns pid raw s).resolved = none := rfl

theorem handleStart_resolved_none (conns : List PlayerId)
    (wc : Option WinCondition) (s : PersistedState) :
    (handleStart conns wc s).resolved = none := by
  unfold handleStart
  split <;> rfl

theorem handleRetract_resolved_none (conns : List PlayerId) (pid : PlayerId)
    (s : PersistedState) :
    (handleRetract conns pid s).resolved = none := by
  unfold handleRetract
  split <;> rfl

theorem handleRestartRequest_resolved_none (conns : List PlayerId)
    (pid : PlayerId) (s : PersistedState) :
    (handleRestartRequest conns pid s).resolved = none := by
  unfold handleRestartRequest
  split
  · rfl
  · split <;> rfl

theorem handleRestartCancel_resolved_none (conns : List PlayerId)
    (s : PersistedState) :
    (handleRestartCancel conns s).resolved = none := by
  unfold handleRestartCancel
  split <;> rfl

theorem handleReset_resolved_none (conns : List PlayerId)
    (s : PersistedState) :
    (handleReset conns s).resolved = none := rfl

theorem handleSubmit_resolved (conns : List PlayerId) (pid : PlayerId)
    (raw : String) (s : PersistedState) (c1 : List PlayerId)
    (s1 : PersistedState)
    (h : (handleSubmit conns pid raw s).resolved = some (c1, s1)) :
    c1 = conns ∧ allSubmittedB c1 s1 = true := by
  simp only [handleSubmit] at h
  split at h
  · simp at h
  · split at h
    · simp at h
    · split at h
      · simp at h
      · split at h
        case isTrue hcond =>
          simp only [Option.some.injEq, Prod.mk.injEq] at h
          obtain ⟨h1, h2⟩ := h
          subst h1
          subst h2
          exact ⟨rfl, hcond⟩
        · simp at h

theorem webSocketClose_resolved (remaining : List PlayerId) (pid : PlayerId)
    (s : PersistedState) (c1 : List PlayerId) (s1 : PersistedState)
    (h : (webSocketClose remaining pid s).resolved = some (c1, s1)) :
    c1 = remaining ∧ allSubmittedB c1 s1 = true := by
  simp only [webSocketClose] at h
  split at h
  · simp at h
  · split at h
    · simp at h
    · split at h
      case isTrue hcond =>
        simp only [Option.some.injEq, Prod.mk.injEq] at h
        obtain ⟨h1, h2⟩ := h
        subst h1
        subst h2
        refine ⟨rfl, ?_⟩
        unfold closeResolveB at hcond
        simp only [Bool.and_eq_true] at hcond
        exact hcond.1.2
      · simp at h

theorem step_msg_resolved (r : Room) (id : PlayerId) (m : ClientMsg)
    (hmem : id ∈ r.conns) :
    (step r (Event.msg id m)).resolved =
      (webSocketMessage r.conns id m r.state).resolved := by
  simp [step, hmem]

theorem step_disconnect_resolved (r : Room) (id : PlayerId)
    (hmem : id ∈ r.conns) :
    (step r (Event.disconnect id)).resolved =
      (webSocketClose (r.conns.filter (fun x => x ≠ id)) id r.state).resolved := by
  simp [step, hmem]

/-- C5: whenever a step invokes round resolution (from the submit handler
or from the disconnect handler), every currently live connection at the
moment of invocation has its submitted flag set to true in the state
passed to `resolveRound`. -/
theorem resolve_only_when_all_submitted (r : Room) (e : Event)
    (c1 : List PlayerId) (s1 : PersistedState)
    (h : (step r e).resolved = some (c1, s1)) :
    ∀ id ∈ c1, (lookupK s1.playerSubmitted id).getD false = true := by
  cases e with
  | connect id =>
    simp only [step] at h
    split at h <;> simp at h
  | msg id m =>
    by_cases hmem : id ∈ r.conns
    · rw [step_msg_resolved r id m hmem] at h
      cases m with
      | ping => simp [webSocketMessage] at h
      | join nm =>
        simp only [webSocketMessage] at h
        rw [handleJoin_resolved_none] at h
        simp at h
      | start wc =>
        simp only [webSocketMessage] at h
        rw [handleStart_resolved_none] at h
        simp at h
      | submit w =>
        simp only [webSocketMessage] at h
        have := handleSubmit_resolved r.conns id w r.state c1 s1 h
        exact allSubmittedB_spec c1 s1 this.2
      | retract =>
        simp only [webSocketMessage] at h
        rw [handleRetract_resolved_none] at h
        simp at h
      | restartReq =>
        simp only [webSocketMessage] at h
        rw [handleRestartRequest_resolved_none] at h
        simp at h
      | restartCancel =>
        simp only [webSocketMessage] at h
        rw [handleRestartCancel_resolved_none] at h
        simp at h
      | reset =>
        simp only [webSocketMessage] at h
        rw [handleReset_resolved_none] at h
        simp at h
    · simp [step, hmem] at h
  | disconnect id =>
    by_cases hmem : id ∈ r.conns
    · rw [step_disconnect_resolved r id hmem] at h
      have := webSocketClose_resolved (r.conns.filter (fun x => x ≠ id)) id
        r.state c1 s1 h
      exact allSubmittedB_spec c1 s1 this.2
    · simp [step, hmem] at h

theorem resolve_only_when_all_submitted_witness :
    (step soloPlayingRoom (Event.msg "a" (ClientMsg.submit "x"))).resolved =
      some (["a"], soloRecordedState) ∧
    (lookupK soloRecordedState.playerSubmitted "a").getD false = true := by
  refine ⟨by decide, ?_⟩
  exact resolve_only_when_all_submitted soloPlayingRoom
    (Event.msg "a" (ClientMsg.submit "x")) ["a"] soloRecordedState
    (by decide) "a" (by decide)

/-! ## C6: usedWords monotonicity -/

theorem resolveRound_used (conns : List PlayerId) (s : PersistedState) :
    ∀ w ∈ s.usedWords, w ∈ (resolveRound conns s).1.usedWords := by
  intro w hw
  simp only [resolveRound]
  split
  · exact mem_mergeUsed _ _ w hw
  · exact mem_mergeUsed _ _ w hw

theorem handleJoin_usedWords (conns : List PlayerId) (pid : PlayerId)
    (raw : String) (s : PersistedState) :
    (handleJoin conns pid raw s).state.usedWords = s.usedWords := rfl

theorem handleStart_usedWords (conns : List PlayerId)
    (wc : Option WinCondition) (s : PersistedState) :
    (handleStart conns wc s).state.usedWords = s.usedWords := by
  unfold handleStart
  split <;> rfl

theorem handleRetract_usedWords (conns : List PlayerId) (pid : PlayerId)
    (s : PersistedState) :
    (handleRetract conns pid s).state.usedWords = s.usedWords := by
  unfold handleRetract
  split <;> rfl

theorem handleRestartCancel_usedWords (conns : List PlayerId)
    (s : PersistedState) :
    (handleRestartCancel conns s).state.usedWords = s.usedWords := by
  unfold handleRestartCancel
  split <;> rfl

theorem handleSubmit_usedWords_mono (conns : List PlayerId) (pid : PlayerId)
    (raw : String) (s : PersistedState) :
    ∀ w ∈ s.usedWords, w ∈ (handleSubmit conns pid raw s).state.usedWords := by
  intro w hw
  simp only [handleSubmit]
  split
  · exact hw
  · split
    · exact hw
    · split
      · exact hw
      · split
        · exact resolveRound_used conns _ w hw
        · exact hw

/-- C6: every step of the room either preserves membership of every word
of `usedWords` (round resolution only adds words, add-if-absent), or is a
fresh-game step (`reset`, successful restart vote, or a disconnect that
completes a restart vote), and a fresh-game step leaves `usedWords`
empty. -/
theorem usedWords_monotone_or_fresh (r : Room) (e : Event) :
    (freshStep r e = true → (step r e).room.state.usedWords = []) ∧
    (freshStep r e = false →
      ∀ w ∈ r.state.usedWords, w ∈ (step r e).room.state.usedWords) := by
  cases e with
  | connect id =>
    refine ⟨?_, ?_⟩
    · intro h
      simp [freshStep] at h
    · intro _ w hw
      simp only [step]
      split <;> simpa using hw
  | msg id m =>
    by_cases hmem : id ∈ r.conns
    · cases m with
      | ping =>
        refine ⟨?_, ?_⟩
        · intro h
          simp [freshStep, hmem] at h
        · intro _ w hw
          simpa [step, hmem, webSocketMessage] using hw
      | join nm =>
        refine ⟨?_, ?_⟩
        · intro h
          simp [freshStep, hmem] at h
        · intro _ w hw
          simp only [step, if_pos hmem, webSocketMessage]
          simpa [handleJoin_usedWords] using hw
      | start wc =>
        refine ⟨?_, ?_⟩
        · intro h
          simp [freshStep, hmem] at h
        · intro _ w hw
          simp only [step, if_pos hmem, webSocketMessage]
          simpa [handleStart_usedWords] using hw
      | submit wd =>
        refine ⟨?_, ?_⟩
        · intro h
          simp [freshStep, hmem] at h
        · intro _ w hw
          simp only [step, if_pos hmem, webSocketMessage]
          simpa using handleSubmit_usedWords_mono r.conns id wd r.state w hw
      | retract =>
        refine ⟨?_, ?_⟩
        · intro h
          simp [freshStep, hmem] at h
        · intro _ w hw
          simp only [step, if_pos hmem, webSocketMessage]
          simpa [handleRetract_usedWords] using hw
      | restartCancel =>
        refine ⟨?_, ?_⟩
        · intro h
          simp [freshStep, hmem] at h
        · intro _ w hw
          simp only [step, if_pos hmem, webSocketMessage]
          simpa [handleRestartCancel_usedWords] using hw
      | reset =>
        refine ⟨?_, ?_⟩
        · intro _
          simp only [step, if_pos hmem, webSocketMessage]
          rfl
        · intro h
          simp [freshStep, hmem] at h
      | restartReq =>
        refine ⟨?_, ?_⟩
        · intro h
          simp only [freshStep, Bool.and_eq_true, decide_eq_true_eq] at h
          obtain ⟨-, hphp, hrs⟩ := h
          simp only [step, if_pos hmem, webSocketMessage]
          unfold handleRestartRequest
          rw [if_neg (by simp [hphp]), if_pos hrs]
          rfl
        · intro h w hw
          simp only [step, if_pos hmem, webSocketMessage]
          unfold handleRestartRequest
          by_cases hphp : r.state.phase = Phase.playing
          · by_cases hrs : restartSucceedsB r.conns id r.state = true
            · exfalso
              have hft : freshStep r (Event.msg id ClientMsg.restartReq) = true := by
                simp only [freshStep, Bool.and_eq_true, decide_eq_true_eq]
                exact ⟨hmem, hphp, hrs⟩
              rw [hft] at h
              cases h
            · rw [if_neg (by simp [hphp]), if_neg hrs]
              simpa using hw
          · rw [if_pos (by simp [hphp])]
            simpa using hw
    · refine ⟨?_, ?_⟩
      · intro h
        simp [freshStep, hmem] at h
      · intro _ w hw
        simpa [step, hmem] using hw
  | disconnect id =>
    by_cases hmem : id ∈ r.conns
    · refine ⟨?_, ?_⟩
      · intro h
        simp only [freshStep, Bool.and_eq_true, decide_eq_true_eq,
          Bool.not_eq_true'] at h
        obtain ⟨-, hne, hcr⟩ := h
        simp only [step, if_pos hmem, webSocketClose]
        rw [if_neg (by rw [hne]; simp), if_pos hcr]
        rfl
      · intro h w hw
        simp only [step, if_pos hmem, webSocketClose]
        by_cases hemp : (List.filter (fun x => x ≠ id) r.conns).isEmpty = true
        · rw [if_pos hemp]
          simpa [deleteTraces] using hw
        · by_cases hcr : closeRestartB (List.filter (fun x => x ≠ id) r.conns)
              (deleteTraces r.state id) = true
          · exfalso
            have hft : freshStep r (Event.disconnect id) = true := by
              simp only [freshStep, Bool.and_eq_true, decide_eq_true_eq,
                Bool.not_eq_true']
              refine ⟨hmem, ?_, hcr⟩
              cases hb : (List.filter (fun x => x ≠ id) r.conns).isEmpty
              · rfl
              · exact absurd hb hemp
            rw [hft] at h
            cases h
          · rw [if_neg hemp, if_neg hcr]
            by_cases hres : closeResolveB (List.filter (fun x => x ≠ id) r.conns)
                (deleteTraces r.state id) = true
            · rw [if_pos hres]
              have := resolveRound_used (List.filter (fun x => x ≠ id) r.conns)
                (deleteTraces r.state id) w (by simpa [deleteTraces] using hw)
              simpa using this
            · rw [if_neg hres]
              simpa [deleteTraces] using hw
    · refine ⟨?_, ?_⟩
      · intro h
        simp [freshStep, hmem] at h
      · intro _ w hw
        simpa [step, hmem] using hw

theorem usedWords_monotone_or_fresh_witness :
    freshStep ⟨["a"], midGameState⟩ (Event.msg "a" ClientMsg.reset) = true ∧
    (step ⟨["a"], midGameState⟩ (Event.msg "a" ClientMsg.reset)).room.state.usedWords = [] := by
  refine ⟨by decide, ?_⟩
  exact (usedWords_monotone_or_fresh ⟨["a"], midGameState⟩
    (Event.msg "a" ClientMsg.reset)).1 (by decide)

/-! ## C8: last connection closing -/

/-- C8 counterexample: a reachable room with a resolved round behind it;
when the last connection closes, the phase is forced to lobby but
`roundHistory` and `usedWords` are retained, so the state is not reset to
its empty/default values. -/
theorem lastClose_counterexample :
    (runTrace playThenLeaveTrace).conns = [] ∧
    (runTrace playThenLeaveTrace).state.phase = Phase.lobby ∧
    (runTrace playThenLeaveTrace).state.roundHistory ≠ [] ∧
    (runTrace playThenLeaveTrace).state.usedWords = ["red", "blue"] := by
  decide

/-- C8 amended: when the last live connection closes, the departing
player's per-player entries are deleted, the phase is forced to lobby and
`restartVotes` is cleared, while `usedWords`, `roundHistory` and `config`
are retained; the resulting state is persisted and nothing is sent. -/
theorem lastClose_lobby_retains_history (r : Room) (id : PlayerId)
    (hmem : id ∈ r.conns)
    (hlast : r.conns.filter (fun x => x ≠ id) = []) :
    (step r (Event.disconnect id)).room.conns = [] ∧
    (step r (Event.disconnect id)).room.state =
      { deleteTraces r.state id with phase := Phase.lobby, restartVotes := [] } ∧
    (step r (Event.disconnect id)).outs = [] := by
  have hemp : (List.filter (fun x => x ≠ id) r.conns).isEmpty = true := by
    rw [hlast]
    rfl
  simp only [step, if_pos hmem, webSocketClose]
  rw [if_pos hemp]
  exact ⟨hlast, rfl, rfl⟩

theorem lastClose_lobby_retains_history_witness :
    ("a" ∈ (["a"] : List PlayerId) ∧
      List.filter (fun x => x ≠ "a") (["a"] : List PlayerId) = []) ∧
    (step ⟨["a"], midGameState⟩ (Event.disconnect "a")).room.state =
      { deleteTraces midGameState "a" with
        phase := Phase.lobby, restartVotes := [] } ∧
    (step ⟨["a"], midGameState⟩ (Event.disconnect "a")).outs = [] := by
  refine ⟨⟨by decide, by decide⟩, ?_, ?_⟩
  · exact (lastClose_lobby_retains_history ⟨["a"], midGameState⟩ "a"
      (by decide) (by decide)).2.1
  · exact (lastClose_lobby_retains_history ⟨["a"], midGameState⟩ "a"
      (by decide) (by decide)).2.2

/-! ## C1: names recorded at resolution -/

theorem subsLive_resolveRound (conns : List PlayerId) (s : PersistedState)
    (hs : ∀ p ∈ s.currentSubmissions, p.1 ∈ conns) :
    ∀ p ∈ (resolveRound conns s).1.currentSubmissions, p.1 ∈ conns := by
  intro p hp
  simp only [resolveRound] at hp
  split at hp
  · exact hs p hp
  · simp at hp

theorem subsLive_webSocketMessage (conns : List PlayerId) (pid : PlayerId)
    (m : ClientMsg) (s : PersistedState) (hpid : pid ∈ conns)
    (hs : ∀ p ∈ s.currentSubmissions, p.1 ∈ conns) :
    ∀ p ∈ (webSocketMessage conns pid m s).state.currentSubmissions,
      p.1 ∈ conns := by
  cases m with
  | ping => exact hs
  | join nm => exact hs
  | start wc =>
    intro p hp
    simp only [webSocketMessage, handleStart] at hp
    split at hp
    · exact hs p hp
    · simp at hp
  | submit w =>
    intro p hp
    simp only [webSocketMessage, handleSubmit] at hp
    split at hp
    · exact hs p hp
    · split at hp
      · exact hs p hp
      · split at hp
        · exact hs p hp
        · have hs1 : ∀ q ∈ setK s.currentSubmissions pid (jsToLower (jsTrim w)),
              q.1 ∈ conns := by
            intro q hq
            rcases mem_setK _ _ _ q hq with h1 | h2
            · rw [h1]
              exact hpid
            · exact hs q h2
          split at hp
          · exact subsLive_resolveRound conns _ (by exact hs1) p hp
          · exact hs1 p hp
  | retract =>
    intro p hp
    simp only [webSocketMessage, handleRetract] at hp
    split at hp
    · exact hs p hp
    · have := (mem_eraseK s.currentSubmissions pid p).mp hp
      exact hs p this.1
  | restartReq =>
    intro p hp
    simp only [webSocketMessage, handleRestartRequest] at hp
    split at hp
    · exact hs p hp
    · split at hp
      · simp [freshGameState] at hp
      · exact hs p hp
  | restartCancel =>
    intro p hp
    simp only [webSocketMessage, handleRestartCancel] at hp
    split at hp
    · exact hs p hp
    · exact hs p hp
  | reset =>
    intro p hp
    simp only [webSocketMessage, handleReset, freshGameState] at hp
    simp at hp

theorem subsLive_webSocketClose (conns : List PlayerId) (id : PlayerId)
    (s : PersistedState)
    (hs : ∀ p ∈ s.currentSubmissions, p.1 ∈ conns) :
    ∀ p ∈ (webSocketClose (conns.filter (fun x => x ≠ id)) id s).state.currentSubmissions,
      p.1 ∈ conns.filter (fun x => x ≠ id) := by
  have hs1 : ∀ p ∈ (deleteTraces s id).currentSubmissions,
      p.1 ∈ conns.filter (fun x => x ≠ id) := by
    intro p hp
    simp only [deleteTraces] at hp
    have := (mem_eraseK s.currentSubmissions id p).mp hp
    simp only [List.mem_filter, decide_eq_true_eq]
    exact ⟨hs p this.1, this.2⟩
  intro p hp
  simp only [webSocketClose] at hp
  split at hp
  · exact hs1 p hp
  · split at hp
    · simp [freshGameState] at hp
    · split at hp
      · exact subsLive_resolveRound _ _ hs1 p hp
      · exact hs1 p hp

theorem reachable_subs_live (r : Room) (h : Reachable r) :
    ∀ p ∈ r.state.currentSubmissions, p.1 ∈ r.conns := by
  induction h with
  | init =>
    intro p hp
    simp [initRoom, initialState] at hp
  | next r e hr ih =>
    cases e with
    | connect id =>
      intro p hp
      by_cases hmem : id ∈ r.conns
      · simp only [step, if_pos hmem] at hp ⊢
        exact ih p hp
      · simp only [step, if_neg hmem] at hp ⊢
        simpa using Or.inl (ih p hp)
    | msg id m =>
      by_cases hmem : id ∈ r.conns
      · simp only [step, if_pos hmem]
        exact subsLive_webSocketMessage r.conns id m r.state hmem ih
      · simp only [step, if_neg hmem]
        exact ih
    | disconnect id =>
      by_cases hmem : id ∈ r.conns
      · simp only [step, if_pos hmem]
        exact subsLive_webSocketClose r.conns id r.state ih
      · simp only [step, if_neg hmem]
        exact ih

/-- C1 counterexample: a reachable execution in which a live connection
that never joined submits; round resolution records its submission in
`roundHistory` with the placeholder name "Unknown" while no name is on
file for it in `playerNames`. -/
theorem roundHistory_placeholder_cex :
    (runTrace unjoinedSubmitTrace).state.roundHistory =
      [⟨[⟨"b", "Unknown", "apple"⟩, ⟨"a", "Alice", "apple"⟩], true, some "apple"⟩] ∧
    lookupK (runTrace unjoinedSubmitTrace).state.playerNames "b" = none := by
  decide

/-- C1 amended: in every reachable room, every submission that round
resolution would record belongs to a currently live connection — an
orphaned submission of a player who disconnected before resolution never
appears, because the disconnect handler purges it — and its recorded name
is the name on file in `playerNames` at resolution time when one exists,
the placeholder "Unknown" otherwise (which does occur, for a live
connection that never joined). -/
theorem roundEntry_submissions_live (r : Room) (h : Reachable r) :
    ∀ sub ∈ mkSubmissions r.state,
      sub.id ∈ r.conns ∧
      sub.name = (lookupK r.state.playerNames sub.id).getD "Unknown" := by
  intro sub hsub
  simp only [mkSubmissions, List.mem_map] at hsub
  obtain ⟨p, hp, rfl⟩ := hsub
  exact ⟨reachable_subs_live r h p hp, rfl⟩

theorem roundEntry_submissions_live_witness :
    (⟨"a", "Alice", "pear"⟩ : Submission) ∈
      mkSubmissions (runTrace submitInFlightTrace).state ∧
    "a" ∈ (runTrace submitInFlightTrace).conns := by
  refine ⟨by decide, ?_⟩
  exact (roundEntry_submissions_live (runTrace submitInFlightTrace)
    (reachable_runTrace submitInFlightTrace) ⟨"a", "Alice", "pear"⟩ (by decide)).1

/-! ## C3: majority mode -/

theorem mem_distinctsInOrder (l : List String) (x : String) :
    x ∈ distinctsInOrder l ↔ x ∈ l := by
  induction l with
  | nil => simp [distinctsInOrder]
  | cons w ws ih =>
    simp only [distinctsInOrder, List.mem_cons, List.mem_filter, ih,
      decide_eq_true_eq]
    by_cases hx : x = w
    · simp [hx]
    · simp [hx]

theorem nodup_distinctsInOrder (l : List String) :
    (distinctsInOrder l).Nodup := by
  induction l with
  | nil => simp [distinctsInOrder]
  | cons w ws ih =>
    simp only [distinctsInOrder]
    refine List.Nodup.cons ?_ (ih.filter _)
    intro hmem
    have := List.of_mem_filter hmem
    simp at this

theorem count_app_one (d : List String) (x w : String) :
    (d ++ [x]).count w = d.count w + (if w = x then 1 else 0) := by
  by_cases h : w = x
  · simp [List.count_append, h]
  · simp [List.count_append, h, List.count_singleton', Ne.symm h]

theorem dIO_append (d : List String) (x : String) :
    distinctsInOrder (d ++ [x]) =
      if x ∈ d then distinctsInOrder d else distinctsInOrder d ++ [x] := by
  induction d with
  | nil => simp [distinctsInOrder]
  | cons a d ih =>
    have h1 : distinctsInOrder ((a :: d) ++ [x]) =
        a :: (distinctsInOrder (d ++ [x])).filter (fun y => y ≠ a) := rfl
    rw [h1, ih]
    by_cases hxd : x ∈ d
    · rw [if_pos hxd, if_pos (List.mem_cons_of_mem a hxd)]
      rfl
    · by_cases hxa : x = a
      · rw [if_neg hxd, if_pos (by simp [hxa]), List.filter_append]
        simp [hxa, distinctsInOrder]
      · rw [if_neg hxd, if_neg (by simp [hxa, hxd]), List.filter_append]
        simp [hxa, distinctsInOrder]

theorem incr_map_of_mem (ds : List String) (f : String → Nat) (x : String)
    (hnd : ds.Nodup) (hx : x ∈ ds) :
    incr (ds.map (fun w => (w, f w))) x =
      ds.map (fun w => (w, if w = x then f w + 1 else f w)) := by
  induction ds with
  | nil => cases hx
  | cons a ds ih =>
    simp only [List.map_cons, incr]
    by_cases ha : a = x
    · rw [if_pos ha]
      have hnx : x ∉ ds := ha ▸ (List.nodup_cons.mp hnd).1
      have : ds.map (fun w => (w, if w = x then f w + 1 else f w)) =
          ds.map (fun w => (w, f w)) := by
        apply List.map_congr_left
        intro w hw
        have hwx : w ≠ x := fun hh => hnx (hh ▸ hw)
        simp [hwx]
      rw [this, ha]
      simp
    · rw [if_neg ha]
      have hx2 : x ∈ ds := by
        rcases List.mem_cons.mp hx with h | h
        · exact absurd h.symm ha
        · exact h
      rw [ih (List.nodup_cons.mp hnd).2 hx2]
      have hax : ¬ a = x := ha
      simp [hax]

theorem incr_map_of_not_mem (ds : List String) (f : String → Nat) (x : String)
    (hx : x ∉ ds) :
    incr (ds.map (fun w => (w, f w))) x =
      ds.map (fun w => (w, f w)) ++ [(x, 1)] := by
  induction ds with
  | nil => simp [incr]
  | cons a ds ih =>
    simp only [List.map_cons, incr]
    have hax : ¬ a = x := fun hh => hx (hh ▸ List.mem_cons_self a ds)
    rw [if_neg hax, ih (fun hh => hx (List.mem_cons_of_mem a hh))]
    simp

theorem buildCounts_rep (ws d : List String) :
    List.foldl incr ((distinctsInOrder d).map (fun w => (w, d.count w))) ws =
      (distinctsInOrder (d ++ ws)).map (fun w => (w, (d ++ ws).count w)) := by
  induction ws generalizing d with
  | nil => simp
  | cons x ws ih =>
    have hkey : incr ((distinctsInOrder d).map (fun w => (w, d.count w))) x =
        (distinctsInOrder (d ++ [x])).map (fun w => (w, (d ++ [x]).count w)) := by
      by_cases hxd : x ∈ d
      · rw [incr_map_of_mem _ _ _ (nodup_distinctsInOrder d)
          ((mem_distinctsInOrder d x).mpr hxd)]
        rw [dIO_append, if_pos hxd]
        apply List.map_congr_left
        intro w hw
        rw [count_app_one]
        by_cases hwx : w = x
        · simp [hwx]
        · simp [hwx]
      · rw [incr_map_of_not_mem _ _ _
          (fun hh => hxd ((mem_distinctsInOrder d x).mp hh))]
        rw [dIO_append, if_neg hxd, List.map_append]
        congr 1
        · apply List.map_congr_left
          intro w hw
          rw [count_app_one]
          have hwx : w ≠ x := by
            intro hh
            exact hxd (hh ▸ (mem_distinctsInOrder d w).mp hw)
          simp [hwx]
        · simp only [List.map_cons, List.map_nil]
          rw [count_app_one]
          rw [List.count_eq_zero.mpr hxd]
          simp
    rw [List.foldl_cons, hkey, ih (d ++ [x])]
    simp

theorem buildCounts_eq (ws : List String) :
    buildCounts ws = (distinctsInOrder ws).map (fun w => (w, ws.count w)) := by
  have h := buildCounts_rep ws []
  simpa [buildCounts, distinctsInOrder] using h

theorem mem_buildCounts (ws : List String) (x : String) (c : Nat)
    (h : (x, c) ∈ buildCounts ws) : x ∈ ws ∧ c = ws.count x := by
  rw [buildCounts_eq] at h
  simp only [List.mem_map, Prod.mk.injEq] at h
  obtain ⟨w, hw, hw1, hw2⟩ := h
  refine ⟨?_, ?_⟩
  · rw [← hw1]
    exact (mem_distinctsInOrder ws w).mp hw
  · rw [← hw1]
    exact hw2.symm

theorem buildCounts_mem_of_mem (ws : List String) (x : String) (hx : x ∈ ws) :
    (x, ws.count x) ∈ buildCounts ws := by
  rw [buildCounts_eq]
  simp only [List.mem_map]
  exact ⟨x, (mem_distinctsInOrder ws x).mpr hx, rfl⟩

theorem pw_foldl_ge (l : List (String × Nat)) (a : Option String × Nat) :
    a.2 ≤ (List.foldl
        (fun acc e => if e.2 > acc.2 then (some e.1, e.2) else acc) a l).2 ∧
    ∀ e ∈ l, e.2 ≤ (List.foldl
        (fun acc e => if e.2 > acc.2 then (some e.1, e.2) else acc) a l).2 := by
  induction l generalizing a with
  | nil => exact ⟨le_refl _, by simp⟩
  | cons e l ih =>
    simp only [List.foldl_cons]
    have h1 : a.2 ≤ (if e.2 > a.2 then (some e.1, e.2) else a).2 := by
      split <;> omega
    have h2 : e.2 ≤ (if e.2 > a.2 then (some e.1, e.2) else a).2 := by
      split <;> omega
    obtain ⟨ih1, ih2⟩ := ih (if e.2 > a.2 then (some e.1, e.2) else a)
    refine ⟨le_trans h1 ih1, ?_⟩
    intro x hx
    rcases List.mem_cons.mp hx with h | h
    · subst h
      exact le_trans h2 ih1
    · exact ih2 x h

theorem pw_foldl_result (l : List (String × Nat)) (a : Option String × Nat) :
    List.foldl (fun acc e => if e.2 > acc.2 then (some e.1, e.2) else acc) a l = a ∨
    ∃ e ∈ l, List.foldl
        (fun acc e => if e.2 > acc.2 then (some e.1, e.2) else acc) a l =
      (some e.1, e.2) := by
  induction l generalizing a with
  | nil => exact Or.inl rfl
  | cons e l ih =>
    simp only [List.foldl_cons]
    rcases ih (if e.2 > a.2 then (some e.1, e.2) else a) with h | ⟨x, hx, hfe⟩
    · rw [h]
      by_cases hcond : e.2 > a.2
      · rw [if_pos hcond]
        exact Or.inr ⟨e, List.mem_cons_self e l, rfl⟩
      · rw [if_neg hcond]
        exact Or.inl rfl
    · exact Or.inr ⟨x, List.mem_cons_of_mem e hx, hfe⟩

theorem count_two_le (l : List String) (w x : String) (hwx : w ≠ x) :
    l.count w + l.count x ≤ l.length := by
  induction l with
  | nil => simp
  | cons a l ih =>
    have hcw : (a :: l).count w = l.count w + (if a = w then 1 else 0) := by
      simp [List.count_cons]
    have hcx : (a :: l).count x = l.count x + (if a = x then 1 else 0) := by
      simp [List.count_cons]
    rw [hcw, hcx, List.length_cons]
    by_cases h1 : a = w
    · have h2 : ¬ a = x := fun hh => hwx (h1.symm.trans hh)
      rw [if_pos h1, if_neg h2]
      omega
    · rw [if_neg h1]
      by_cases h2 : a = x
      · rw [if_pos h2]
        omega
      · rw [if_neg h2]
        omega

theorem find?_of_unique (l : List String) (p : String → Bool) (a : String)
    (ha : a ∈ l) (hpa : p a = true)
    (huniq : ∀ b ∈ l, p b = true → b = a) :
    l.find? p = some a := by
  induction l with
  | nil => cases ha
  | cons x l ih =>
    by_cases hx : p x = true
    · rw [List.find?_cons_of_pos _ hx]
      rw [huniq x (List.mem_cons_self x l) hx]
    · rw [List.find?_cons_of_neg _ (by simpa using hx)]
      have ha2 : a ∈ l := by
        rcases List.mem_cons.mp ha with h | h
        · exact absurd (h ▸ hpa) hx
        · exact h
      exact ih ha2 (fun b hb hpb => huniq b (List.mem_cons_of_mem x hb) hpb)

/-- C3: in majority mode, a win exists iff there are at least two
submitted words and some word occurs strictly more than half the time;
the winner returned is a submitted word with a strict-majority count (the
maximum count), and it is the first distinct word, in first-encounter
scan order, whose count attains that maximum. -/
theorem resolveWin_majority_characterization (words : List String) :
    ((resolveWin words ⟨WinCondition.majority⟩).isSome ↔
      2 ≤ words.length ∧ ∃ w ∈ words, words.length < 2 * words.count w) ∧
    (∀ w, resolveWin words ⟨WinCondition.majority⟩ = some w →
      w ∈ words ∧ words.length < 2 * words.count w ∧
      (∀ x ∈ words, words.count x ≤ words.count w) ∧
      (distinctsInOrder words).find?
        (fun x => words.count x == words.count w) = some w) := by
  by_cases hlen : words.length < 2
  · have hnone : resolveWin words ⟨WinCondition.majority⟩ = none := by
      unfold resolveWin
      rw [if_pos hlen]
    rw [hnone]
    constructor
    · simp
      omega
    · intro w hw
      cases hw
  · have hrw : resolveWin words ⟨WinCondition.majority⟩ =
        (if words.length < 2 * (pickWinner (buildCounts words)).2 then
          (pickWinner (buildCounts words)).1 else none) := by
      unfold resolveWin
      rw [if_neg hlen]
    have hmax := pw_foldl_ge (buildCounts words) (none, 0)
    have hresult := pw_foldl_result (buildCounts words) (none, 0)
    constructor
    · rw [hrw]
      constructor
      · intro h
        refine ⟨by omega, ?_⟩
        by_cases hguard : words.length < 2 * (pickWinner (buildCounts words)).2
        · rw [if_pos hguard] at h
          rcases hresult with hr | ⟨e, he, hfe⟩
          · rw [pickWinner] at hguard
            rw [hr] at hguard
            simp at hguard
          · obtain ⟨hew, hec⟩ := mem_buildCounts words e.1 e.2 he
            refine ⟨e.1, hew, ?_⟩
            rw [pickWinner] at hguard
            rw [hfe] at hguard
            simp only at hguard
            omega
        · rw [if_neg hguard] at h
          simp at h
      · rintro ⟨-, m, hm, hcm⟩
        have hmem := buildCounts_mem_of_mem words m hm
        have hle := hmax.2 (m, words.count m) hmem
        have hguard : words.length < 2 * (pickWinner (buildCounts words)).2 := by
          rw [pickWinner]
          omega
        rw [if_pos hguard]
        rcases hresult with hr | ⟨e, he, hfe⟩
        · exfalso
          rw [pickWinner] at hguard
          rw [hr] at hguard
          simp at hguard
        · rw [pickWinner, hfe]
          simp
    · intro w hw
      rw [hrw] at hw
      by_cases hguard : words.length < 2 * (pickWinner (buildCounts words)).2
      · rw [if_pos hguard] at hw
        rcases hresult with hr | ⟨e, he, hfe⟩
        · exfalso
          rw [pickWinner] at hguard
          rw [hr] at hguard
          simp at hguard
        · have hw1 : e.1 = w := by
            rw [pickWinner] at hw
            rw [hfe] at hw
            simpa using hw
          obtain ⟨hew, hec⟩ := mem_buildCounts words e.1 e.2 he
          have hpw2 : (pickWinner (buildCounts words)).2 = words.count w := by
            rw [pickWinner, hfe]
            rw [← hw1, ← hec]
          have hcw : words.length < 2 * words.count w := by
            rw [hpw2] at hguard
            exact hguard
          have hmaxall : ∀ x ∈ words, words.count x ≤ words.count w := by
            intro x hx
            have := hmax.2 (x, words.count x) (buildCounts_mem_of_mem words x hx)
            rw [pickWinner] at hpw2
            omega
          refine ⟨hw1 ▸ hew, hcw, hmaxall, ?_⟩
          apply find?_of_unique
          · exact (mem_distinctsInOrder words w).mpr (hw1 ▸ hew)
          · simp
          · intro b hb hpb
            simp only [beq_iff_eq] at hpb
            by_contra hbw
            have hble : words.count b + words.count w ≤ words.length :=
              count_two_le words b w hbw
            omega
      · rw [if_neg hguard] at hw
        cases hw

theorem resolveWin_majority_characterization_witness :
    resolveWin ["a", "a", "b"] ⟨WinCondition.majority⟩ = some "a" ∧
    ("a" ∈ (["a", "a", "b"] : List String) ∧
      (["a", "a", "b"] : List String).length <
        2 * (["a", "a", "b"] : List String).count "a") := by
  refine ⟨by decide, ?_⟩
  have h := (resolveWin_majority_characterization ["a", "a", "b"]).2 "a" (by decide)
  exact ⟨h.1, h.2.1⟩

theorem resolveWin_exact_characterization_witness :
    resolveWin ["a", "a"] ⟨WinCondition.exact⟩ = some "a" ∧
    ("a" ∈ (["a", "a"] : List String) ∧
      ∀ x ∈ (["a", "a"] : List String), x = "a") := by
  refine ⟨by decide, ?_⟩
  exact (resolveWin_exact_characterization ["a", "a"]).2 "a" (by decide)

/-! ## C9: join name deduplication -/

theorem digitsGo_lt10 : ∀ fuel n d, d ∈ digitsGo fuel n → d < 10 := by
  intro fuel
  induction fuel with
  | zero =>
    intro n d hd
    simp [digitsGo] at hd
  | succ fuel ih =>
    intro n d hd
    by_cases h10 : n < 10
    · simp only [digitsGo, if_pos h10, List.mem_singleton] at hd
      omega
    · simp only [digitsGo, if_neg h10, List.mem_append, List.mem_singleton] at hd
      rcases hd with h | h
      · exact ih (n / 10) d h
      · rw [h]
        exact Nat.mod_lt n (by omega)

theorem digitsGo_foldl : ∀ fuel n a, n < fuel →
    (digitsGo fuel n).foldl (fun x d => x * 10 + d) a =
      a * 10 ^ (digitsGo fuel n).length + n := by
  intro fuel
  induction fuel with
  | zero =>
    intro n a h
    omega
  | succ fuel ih =>
    intro n a h
    by_cases h10 : n < 10
    · simp only [digitsGo, if_pos h10, List.foldl_cons, List.foldl_nil,
        List.length_cons, List.length_nil]
      ring
    · have hh : n / 10 < fuel := by
        have hlt : n / 10 < n := Nat.div_lt_self (by omega) (by omega)
        omega
      simp only [digitsGo, if_neg h10]
      rw [List.foldl_append, ih (n / 10) a hh]
      simp only [List.foldl_cons, List.foldl_nil, List.length_append,
        List.length_cons, List.length_nil]
      generalize (digitsGo fuel (n / 10)).length = L
      have hdm : n / 10 * 10 + n % 10 = n := by
        rw [Nat.mul_comm]
        exact Nat.div_add_mod n 10
      have hpow : (10 : Nat) ^ (L + (0 + 1)) = 10 ^ L * 10 := by
        rw [show L + (0 + 1) = L + 1 from rfl, pow_succ]
      rw [hpow]
      calc (a * 10 ^ L + n / 10) * 10 + n % 10
          = a * (10 ^ L * 10) + (n / 10 * 10 + n % 10) := by ring
        _ = a * (10 ^ L * 10) + n := by rw [hdm]

theorem decVal (n : Nat) :
    (decDigits n).foldl (fun x d => x * 10 + d) 0 = n := by
  have h := digitsGo_foldl (n + 1) n 0 (by omega)
  simpa [decDigits] using h

theorem decDigits_inj (m n : Nat) (h : decDigits m = decDigits n) : m = n := by
  have h1 := decVal m
  rw [h, decVal n] at h1
  exact h1.symm

theorem digitChar_inj (d1 d2 : Nat) (h1 : d1 < 10) (h2 : d2 < 10)
    (he : digitChar d1 = digitChar d2) : d1 = d2 := by
  interval_cases d1 <;> interval_cases d2 <;> revert he <;> decide

theorem map_digitChar_inj : ∀ (l1 l2 : List Nat), (∀ d ∈ l1, d < 10) →
    (∀ d ∈ l2, d < 10) → l1.map digitChar = l2.map digitChar → l1 = l2 := by
  intro l1
  induction l1 with
  | nil =>
    intro l2 _ _ h
    cases l2 with
    | nil => rfl
    | cons e l2 => simp at h
  | cons d l ih =>
    intro l2 hb1 hb2 h
    cases l2 with
    | nil => simp at h
    | cons e l2 =>
      simp only [List.map_cons, List.cons.injEq] at h
      have hde : d = e := digitChar_inj d e (hb1 d (by simp)) (hb2 e (by simp)) h.1
      have htl := ih l2 (fun x hx => hb1 x (by simp [hx]))
        (fun x hx => hb2 x (by simp [hx])) h.2
      rw [hde, htl]

theorem natStr_inj (m n : Nat) (h : natStr m = natStr n) : m = n := by
  have hlist : (decDigits m).map digitChar = (decDigits n).map digitChar := by
    simpa [natStr, List.asString, String.ext_iff] using h
  exact decDigits_inj m n (map_digitChar_inj _ _
    (fun d hd => digitsGo_lt10 (m + 1) m d hd)
    (fun d hd => digitsGo_lt10 (n + 1) n d hd) hlist)

theorem sAppend_data (a b : String) : (a ++ b).data = a.data ++ b.data := by
  cases a
  cases b
  rfl

theorem candidateName_inj (base : String) (m n : Nat)
    (h : candidateName base m = candidateName base n) : m = n := by
  have h0 := congrArg String.data h
  simp only [candidateName, sAppend_data, List.append_assoc] at h0
  have h2 := List.append_cancel_left h0
  have h3 := List.append_cancel_left h2
  have h4 := List.append_cancel_right h3
  exact natStr_inj m n (String.ext_iff.mpr h4)

theorem exists_free_candidate (taken : List String) (base : String) (n0 : Nat) :
    ∃ k, k < taken.length + 1 ∧ candidateName base (n0 + k) ∉ taken := by
  by_contra hc
  push_neg at hc
  have hsub : ((List.range (taken.length + 1)).map
      (fun k => candidateName base (n0 + k))) ⊆ taken := by
    intro y hy
    simp only [List.mem_map, List.mem_range] at hy
    obtain ⟨k, hk, rfl⟩ := hy
    exact hc k hk
  have hinj : Function.Injective (fun k => candidateName base (n0 + k)) := by
    intro k1 k2 hk
    have := candidateName_inj base (n0 + k1) (n0 + k2) hk
    omega
  have hnd : ((List.range (taken.length + 1)).map
      (fun k => candidateName base (n0 + k))).Nodup :=
    (List.nodup_range _).map hinj
  have hlen := (hnd.subperm hsub).length_le
  simp at hlen

theorem findFreeN_ge (taken : List String) (base : String) :
    ∀ fuel n, n ≤ findFreeN taken base fuel n := by
  intro fuel
  induction fuel with
  | zero =>
    intro n
    exact le_refl n
  | succ fuel ih =>
    intro n
    simp only [findFreeN]
    split
    · exact le_trans (Nat.le_succ n) (ih (n + 1))
    · exact le_refl n

theorem findFreeN_min (taken : List String) (base : String) :
    ∀ fuel n m, n ≤ m → m < findFreeN taken base fuel n →
      candidateName base m ∈ taken := by
  intro fuel
  induction fuel with
  | zero =>
    intro n m hnm hlt
    simp only [findFreeN] at hlt
    omega
  | succ fuel ih =>
    intro n m hnm hlt
    simp only [findFreeN] at hlt
    by_cases hmem : candidateName base n ∈ taken
    · rw [if_pos hmem] at hlt
      by_cases hmn : m = n
      · rw [hmn]
        exact hmem
      · exact ih (n + 1) m (by omega) hlt
    · rw [if_neg hmem] at hlt
      omega

theorem findFreeN_free (taken : List String) (base : String) :
    ∀ fuel n, (∃ k, k < fuel ∧ candidateName base (n + k) ∉ taken) →
      candidateName base (findFreeN taken base fuel n) ∉ taken := by
  intro fuel
  induction fuel with
  | zero =>
    intro n h
    obtain ⟨k, hk, -⟩ := h
    omega
  | succ fuel ih =>
    intro n h
    obtain ⟨k, hk, hfree⟩ := h
    simp only [findFreeN]
    by_cases hmem : candidateName base n ∈ taken
    · rw [if_pos hmem]
      apply ih (n + 1)
      have hk0 : k ≠ 0 := by
        intro h0
        rw [h0] at hfree
        simp at hfree
        exact hfree hmem
      exact ⟨k - 1, by omega, by
        rw [show n + 1 + (k - 1) = n + k by omega]
        exact hfree⟩
    · rw [if_neg hmem]
      exact hmem

/-- C9: when the normalized join name collides with the name of another
currently live connection, the stored name is the normalized name with
the suffix " (n)", where n is the smallest integer at least 2 whose
candidate is not among the live taken names. -/
theorem join_collision_smallest_suffix (conns : List PlayerId)
    (pid : PlayerId) (raw : String) (s : PersistedState)
    (hcol : normalizeName raw ∈ takenNames conns pid s) :
    lookupK (handleJoin conns pid raw s).state.playerNames pid =
      some (candidateName (normalizeName raw)
        (findFreeN (takenNames conns pid s) (normalizeName raw)
          ((takenNames conns pid s).length + 1) 2)) ∧
    candidateName (normalizeName raw)
      (findFreeN (takenNames conns pid s) (normalizeName raw)
        ((takenNames conns pid s).length + 1) 2) ∉ takenNames conns pid s ∧
    2 ≤ findFreeN (takenNames conns pid s) (normalizeName raw)
      ((takenNames conns pid s).length + 1) 2 ∧
    ∀ m, 2 ≤ m →
      m < findFreeN (takenNames conns pid s) (normalizeName raw)
        ((takenNames conns pid s).length + 1) 2 →
      candidateName (normalizeName raw) m ∈ takenNames conns pid s := by
  refine ⟨?_, ?_, ?_, ?_⟩
  · have hjn : joinName conns pid raw s =
        candidateName (normalizeName raw)
          (findFreeN (takenNames conns pid s) (normalizeName raw)
            ((takenNames conns pid s).length + 1) 2) := by
      unfold joinName
      rw [if_pos hcol]
    simp only [handleJoin]
    rw [lookupK_setK_self, hjn]
  · exact findFreeN_free (takenNames conns pid s) (normalizeName raw)
      ((takenNames conns pid s).length + 1) 2
      (exists_free_candidate (takenNames conns pid s) (normalizeName raw) 2)
  · exact findFreeN_ge (takenNames conns pid s) (normalizeName raw)
      ((takenNames conns pid s).length + 1) 2
  · intro m h2 hlt
    exact findFreeN_min (takenNames conns pid s) (normalizeName raw)
      ((takenNames conns pid s).length + 1) 2 m h2 hlt

theorem join_collision_smallest_suffix_witness :
    normalizeName "Alice" ∈ takenNames ["a", "b"] "b" aliceTakenState ∧
    lookupK (handleJoin ["a", "b"] "b" "Alice" aliceTakenState).state.playerNames "b" =
      some "Alice (2)" := by
  refine ⟨by decide, ?_⟩
  have h := (join_collision_smallest_suffix ["a", "b"] "b" "Alice"
    aliceTakenState (by decide)).1
  rw [h]
  decide

/-! ## C10: broadcast player list -/

/-- C10: every broadcast state message lists as players exactly the live
connections with a name on file; a connected socket that never joined is
omitted, and each listed submitted flag is the recorded one, defaulting to
false. -/
theorem broadcast_players_characterization (conns : List PlayerId)
    (s : PersistedState) (p : Player) :
    broadcastStateMsg conns s =
      ServerMsg.stateMsg s.phase (statePlayers conns s) s.roundHistory
        s.restartVotes s.config ∧
    (p ∈ statePlayers conns s ↔
      p.id ∈ conns ∧ lookupK s.playerNames p.id = some p.name ∧
        p.submitted = (lookupK s.playerSubmitted p.id).getD false) := by
  refine ⟨rfl, ?_⟩
  constructor
  · intro hp
    simp only [statePlayers, List.mem_map, List.mem_filter] at hp
    obtain ⟨id, ⟨hid, hsome⟩, hpeq⟩ := hp
    obtain ⟨nm, hnm⟩ := Option.isSome_iff_exists.mp (by simpa using hsome)
    subst hpeq
    exact ⟨hid, by simp [hnm], rfl⟩
  · rintro ⟨hid, hnm, hsub⟩
    simp only [statePlayers, List.mem_map, List.mem_filter]
    refine ⟨p.id, ⟨hid, by simp [hnm]⟩, ?_⟩
    cases p with
    | mk i n b =>
      simp only at hnm hsub
      simp [hnm, ← hsub]

theorem broadcast_players_characterization_witness :
    (⟨"a", "Al", false⟩ : Player) ∈ statePlayers ["a", "b"] soloPlayingRoom.state :=
  (broadcast_players_characterization ["a", "b"] soloPlayingRoom.state
    ⟨"a", "Al", false⟩).2.mpr ⟨by decide, by decide, by decide⟩

end Meld
